import Mathlib

/-!
# bcap/caller: plan model, HTTP shorthand, memory fill and loop handler

A shallow embedding of `plan/http.go`, `plan/execution.go`, `memory/fill.go` and
`handler/step.go`, followed by theorems about it.

Conventions.
* Go strings are Lean `String`s; scanning works on their character lists.
* Go `int` is the 64 bit two's complement integer: arithmetic results are
  reduced with `wrapInt`.
* A method with a pointer receiver returns the receiver after the call
  together with what the Go method returns.
-/

namespace Caller

/-! ## Go integers -/

/-- Number of bits of a Go `int` (64 bit platforms). -/
def intBits : Nat := 64

/-- Largest Go `int`, `math.MaxInt`. -/
def maxInt : Int := 2 ^ (intBits - 1) - 1

/-- Smallest Go `int`, `math.MinInt`. -/
def minInt : Int := -(2 ^ (intBits - 1))

/-- Two's complement reduction of an exact integer to a Go `int`. -/
def wrapInt (x : Int) : Int :=
  (x + 2 ^ (intBits - 1)) % 2 ^ intBits - 2 ^ (intBits - 1)

/-! ## `regexp`: the fragment used by `HTTPPattern` -/

/-- The character class `\w` of Go regular expressions: `[0-9A-Za-z_]`. -/
def isWord (c : Char) : Bool :=
  ('0' ≤ c && c ≤ '9') || ('A' ≤ c && c ≤ 'Z') || ('a' ≤ c && c ≤ 'z') || c = '_'

/-- The character class `\s` of Go regular expressions: `[\t\n\f\r ]`. -/
def isSpace (c : Char) : Bool :=
  c = '\t' || c = '\n' || c = '\x0c' || c = '\r' || c = ' '

/-- The character class `[^\s]`. -/
def notSpace (c : Char) : Bool := !isSpace c

/-- The character class `\d` of Go regular expressions: `[0-9]`. -/
def isDigit (c : Char) : Bool := '0' ≤ c && c ≤ '9'

/-- Regular expressions built from the operators that occur in `HTTPPattern`. -/
inductive Regex where
  /-- `C+` for a character class `C`: one or more, greedy. -/
  | plus (cls : Char → Bool)
  /-- Concatenation. -/
  | cat (a b : Regex)
  /-- `(?:a)?`: zero or one, preferring one. -/
  | opt (a : Regex)
  /-- `(a)`: capturing group number `idx`. -/
  | group (idx : Nat) (a : Regex)

/-- Text captured so far by each group; a group that took no part holds `""`. -/
abbrev Captures := Nat → List Char

/-- Captures with group `idx` set to `v`. -/
def Captures.set (caps : Captures) (idx : Nat) (v : List Char) : Captures :=
  fun i => if i = idx then v else caps i

/-- Backtracking match of `C+` at the head of `s`: the longest run is tried
first, then shorter ones; `k` is the rest of the match. -/
def matchPlus {R : Type} (cls : Char → Bool) : List Char → (List Char → Option R) → Option R
  | [], _ => none
  | c :: cs, k =>
    if cls c then
      match matchPlus cls cs k with
      | some r => some r
      | none => k cs
    else none

/-- Backtracking match of a regular expression at the head of `s`, in the
priority order of Go's `regexp` (leftmost-first); `k` is the rest of the match. -/
def Regex.run : Regex → List Char → Captures →
    (List Char → Captures → Option Captures) → Option Captures
  | .plus cls, s, caps, k => matchPlus cls s (fun rest => k rest caps)
  | .cat a b, s, caps, k => a.run s caps (fun rest caps1 => b.run rest caps1 k)
  | .opt a, s, caps, k =>
    match a.run s caps k with
    | some r => some r
    | none => k s caps
  | .group idx a, s, caps, k =>
    a.run s caps (fun rest caps1 => k rest (caps1.set idx (s.take (s.length - rest.length))))

/-- Leftmost match of an unanchored regular expression: the first start
position at which `re` matches; the text after the match is not looked at. -/
def Regex.find (re : Regex) : List Char → Option Captures
  | [] => re.run [] (fun _ => []) (fun _ caps => some caps)
  | c :: cs =>
    match re.run (c :: cs) (fun _ => []) (fun _ caps => some caps) with
    | some r => some r
    | none => re.find cs

/-- The request and response body sizes of `HTTPPattern`, inside its optional
group: `\s+(\d+)\s+(\d+)`. -/
def sizesPattern : Regex :=
  .cat (.plus isSpace) <|
  .cat (.group 4 (.plus isDigit)) <|
  .cat (.plus isSpace) (.group 5 (.plus isDigit))

/-- The pattern `HTTPPattern`:
`(\w+)\s+([^\s]+)\s+(\d+)(?:\s+(\d+)\s+(\d+))?`. -/
def HTTPPattern : Regex :=
  .cat (.group 1 (.plus isWord)) <|
  .cat (.plus isSpace) <|
  .cat (.group 2 (.plus notSpace)) <|
  .cat (.plus isSpace) <|
  .cat (.group 3 (.plus isDigit)) <|
  .opt sizesPattern

/-- The call `httpPattern.FindStringSubmatch(s)`: `none` for Go's `nil`,
otherwise the text of every group (`parts i` is Go's `parts[i]`, for
`1 ≤ i ≤ 5`). -/
def FindStringSubmatch (s : String) : Option Captures :=
  HTTPPattern.find s.data

/-! ## `strconv.Atoi`, `strings.Index`, `url.Parse` -/

/-- Value of a string of decimal digits. -/
def digitsValue (ds : List Char) : Nat :=
  ds.foldl (fun acc c => acc * 10 + (c.toNat - '0'.toNat)) 0

/-- Errors of `strconv.Atoi`. -/
inductive NumError where
  | invalid
  | outOfRange
  deriving DecidableEq, Repr

/-- The function `strconv.Atoi`: an optional sign, then one or more decimal
digits; the value must fit a Go `int`. -/
def Atoi (s : List Char) : Except NumError Int :=
  let neg := s.head? = some '-'
  let ds := if s.head? = some '-' ∨ s.head? = some '+' then s.tail else s
  if ds = [] ∨ ds.all isDigit = false then .error .invalid
  else
    let n : Int := digitsValue ds
    if neg then
      if n ≤ -minInt then .ok (-n) else .error .outOfRange
    else
      if n ≤ maxInt then .ok n else .error .outOfRange

/-- Scan of `strings.Index`: `i` is the index of the head of the text. -/
def stringsIndexFrom (sep : List Char) : List Char → Int → Int
  | [], i => if sep = [] then i else -1
  | c :: cs, i => if sep.isPrefixOf (c :: cs) then i else stringsIndexFrom sep cs (i + 1)

/-- The function `strings.Index(s, sep)`: index of the first occurrence of
`sep` in `s`, or `-1`. -/
def stringsIndex (s sep : String) : Int := stringsIndexFrom sep.data s.data 0

/-- The type `plan.URL`, a wrapper of `*url.URL`. A parsed URL is represented
by the text it was parsed from. -/
structure URL where
  raw : String
  deriving DecidableEq, Repr

/-- The check `stringContainsCTLByte` of `net/url`: a byte below `' '` or the
byte `0x7f`. -/
def stringContainsCTLByte (s : String) : Bool :=
  s.data.any (fun c => c.toNat < 32 || c.toNat = 127)

/-- The function `url.Parse`. Its first rejection, of a text with a control
byte before the fragment, is modelled; `accepts` stands for the rest of the
parser of the standard library. -/
def urlParse (accepts : String → Bool) (s : String) : Except String URL :=
  if stringContainsCTLByte (String.mk (s.data.takeWhile (fun c => c != '#'))) then
    .error "net/url: invalid control character in URL"
  else if accepts s then .ok ⟨s⟩
  else .error "net/url: malformed URL"

/-! ## `plan/http.go` -/

/-- The struct `HTTP`. Header maps are lists of key and value. -/
structure HTTP where
  Method : String
  URL : URL
  StatusCode : Int
  RequestBody : String
  ResponseBody : String
  GenRequestBody : Int
  GenResponseBody : Int
  RequestHeaders : List (String × String)
  ResponseHeaders : List (String × String)
  deriving DecidableEq, Repr

/-- Errors returned by `HTTP.Parse`; each carries the original string `s`
(printed with `%q` by the Go code) and the error it wraps. -/
inductive ParseError where
  /-- `cannot parse http definition %q`. -/
  | cannotParse (s : String)
  /-- `cannot parse http definition %q: status code is not an integer: %w`. -/
  | statusNotInteger (s : String) (err : NumError)
  /-- `cannot parse http definition %q: request body size is not an integer: %w`. -/
  | requestSizeNotInteger (s : String) (err : NumError)
  /-- `cannot parse http definition %q: response body size is not an integer: %w`. -/
  | responseSizeNotInteger (s : String) (err : NumError)
  /-- `cannot parse http definition %q: malformed url: %w`. -/
  | malformedURL (s : String) (err : String)
  deriving DecidableEq, Repr

/-- The original string an error of `HTTP.Parse` names. -/
def ParseError.definition : ParseError → String
  | .cannotParse s => s
  | .statusNotInteger s _ => s
  | .requestSizeNotInteger s _ => s
  | .responseSizeNotInteger s _ => s
  | .malformedURL s _ => s

/-- The text handed to `url.Parse` for the URL token `u`: `http://` is put in
front unless `strings.Index(u, "http")` is `0`. -/
def urlStringOf (u : String) : String :=
  if stringsIndex u "http" ≠ 0 then "http://" ++ u else u

/-- The method `(h *HTTP) Parse(s string) error`: the receiver after the call
and the returned error (`none` for `nil`). -/
def HTTP.Parse (accepts : String → Bool) (h : HTTP) (s : String) : HTTP × Option ParseError :=
  match FindStringSubmatch s with
  | none => (h, some (.cannotParse s))
  | some parts =>
    match Atoi (parts 3) with
    | .error err => (h, some (.statusNotInteger s err))
    | .ok statusCode =>
      match (if parts 4 ≠ [] then Atoi (parts 4) else .ok 0) with
      | .error err => (h, some (.requestSizeNotInteger s err))
      | .ok reqBodySize =>
        match (if parts 4 ≠ [] then Atoi (parts 5) else .ok 0) with
        | .error err => (h, some (.responseSizeNotInteger s err))
        | .ok respBodySize =>
          match urlParse accepts (urlStringOf (String.mk (parts 2))) with
          | .error err => (h, some (.malformedURL s err))
          | .ok url =>
            ({ h with
                Method := String.mk (parts 1)
                URL := url
                StatusCode := statusCode
                GenRequestBody := reqBodySize
                GenResponseBody := respBodySize }, none)

/-- The zero value of `HTTP`. -/
def HTTP.zero : HTTP := ⟨"", ⟨""⟩, 0, "", "", 0, 0, [], []⟩

/-! ## `memory/fill.go` -/

/-- The constant `gcThreshold`, 100 MB. -/
def gcThreshold : Int := 100 * 1024 * 1024

/-- The variable `chunk` after `init`: 1024 bytes, `chunk[i] = byte(i)`. -/
def chunk : List Nat := (List.range 1024).map (fun i => i % 256)

/-- The struct `Fill`; a byte is a natural number below 256. The mutex is left
out: every method runs under it from start to end. -/
structure Fill where
  buf : List Nat
  deriving DecidableEq, Repr

/-- The builtin `copy(dst, src)`: `dst` after the call. -/
def copyInto (dst src : List Nat) : List Nat :=
  src.take dst.length ++ dst.drop src.length

/-- The statement `copy(new[i:], chunk)`: `new` after it. -/
def copyAt (new : List Nat) (i : Nat) (src : List Nat) : List Nat :=
  new.take i ++ copyInto (new.drop i) src

/-- The loop `for i := ...; i < len(new); i += len(chunk) { copy(new[i:], chunk) }`
from index `i` on; `fuel` bounds the number of rounds. -/
def fillFrom : Nat → Nat → List Nat → List Nat
  | 0, _, new => new
  | fuel + 1, i, new =>
    if i < new.length then fillFrom fuel (i + chunk.length) (copyAt new i chunk) else new

/-- The method `Fill.Size`. -/
def Fill.Size (m : Fill) : Int := m.buf.length

/-- The method `Fill.grow`: the receiver after the call and the returned size.
The allocation `make([]byte, newSize)` is taken to succeed. -/
def Fill.grow (m : Fill) (bytes : Int) : Fill × Int :=
  if bytes = 0 then (m, m.Size)
  else
    let newSize := wrapInt (m.buf.length + bytes)
    if newSize ≤ 0 then
      let m1 : Fill := { buf := [] }
      (m1, m1.buf.length)
    else
      let new := copyInto (List.replicate newSize.toNat 0) m.buf
      let m1 : Fill := { buf := fillFrom new.length m.buf.length new }
      (m1, m1.buf.length)

/-- What a call of `Fill.Grow` does: the receiver after the call, the returned
size, and whether `runtime.GC()` was called. The debug output is left out. -/
structure GrowResult where
  fill : Fill
  newSize : Int
  gc : Bool
  deriving DecidableEq, Repr

/-- The method `Fill.Grow`. -/
def Fill.Grow (m : Fill) (bytes : Int) : GrowResult :=
  let (m1, newSize) := m.grow bytes
  let oldSize := wrapInt (newSize - bytes)
  { fill := m1, newSize := newSize
    gc := decide (oldSize > gcThreshold) || decide (newSize > gcThreshold) }

/-- The `Fill` reached from the empty one by calling `Grow` with each element
of `deltas` in turn. -/
def Fill.after (deltas : List Int) : Fill :=
  deltas.foldl (fun m d => (m.Grow d).fill) { buf := [] }

/-! ## `plan/execution.go` -/

/-- The type `StepType`. -/
abbrev StepType := String

/-- Modelled from the spec: the constant `StepTypeCompute` of `plan/step.go`,
a file that is not among the sources; the key that names the step kind. -/
def StepTypeCompute : StepType := "compute"

/-- Modelled from the spec: the constant `StepTypeCall` of `plan/step.go`. -/
def StepTypeCall : StepType := "call"

/-- Modelled from the spec: the constant `StepTypeParallel` of `plan/step.go`. -/
def StepTypeParallel : StepType := "parallel"

/-- Modelled from the spec: the constant `StepTypeLoop` of `plan/step.go`. -/
def StepTypeLoop : StepType := "loop"

/-- Modelled from the spec: the key of a delay step, `delay`. -/
def StepTypeDelay : StepType := "delay"

/-- The Go struct behind a `Step` interface value. -/
inductive StepKind where
  | Compute
  | Call
  | Parallel
  | Loop
  | Delay
  deriving DecidableEq, Repr

/-- A non-nil `Step`: a pointer to a struct of one of the step kinds; `fields`
is the content of the struct, of a type `F` left open. -/
structure Step (F : Type) where
  kind : StepKind
  fields : F
  deriving DecidableEq, Repr

/-- The type `Execution`, a slice of `Step` interface values; `none` is the
nil interface value. -/
abbrev Execution (F : Type) := List (Option (Step F))

/-- The method `StepType()` of each kind of step (`Call.StepType` is in
`plan/call.go`; the others are modelled from the spec). -/
def StepKind.StepType : StepKind → StepType
  | .Compute => StepTypeCompute
  | .Call => StepTypeCall
  | .Parallel => StepTypeParallel
  | .Loop => StepTypeLoop
  | .Delay => StepTypeDelay

/-- The `switch stepType` of `UnmarshalYAML` and of `UnmarshalJSON`: the empty
struct that is allocated, `none` in the `default` case. -/
def stepOfType (stepType : StepType) : Option StepKind :=
  if stepType = StepTypeCompute then some .Compute
  else if stepType = StepTypeCall then some .Call
  else if stepType = StepTypeParallel then some .Parallel
  else if stepType = StepTypeLoop then some .Loop
  else none

/-- The struct `yaml.Node`, with the fields the code reads. -/
inductive Node where
  | mk (Tag Value : String) (Line : Int) (Content : List Node)

/-- Field `Tag` of a node. -/
def Node.Tag : Node → String
  | .mk tag _ _ _ => tag

/-- Field `Value` of a node. -/
def Node.Value : Node → String
  | .mk _ value _ _ => value

/-- Field `Line` of a node. -/
def Node.Line : Node → Int
  | .mk _ _ line _ => line

/-- Field `Content` of a node. -/
def Node.Content : Node → List Node
  | .mk _ _ _ content => content

/-- Errors returned by the methods of `Execution`. -/
inductive ExecError where
  /-- `execution is an array of maps, but got an element of type %q instead`. -/
  | notAMap (tag : String)
  /-- `unrecognized step type %q in line %d` (YAML). -/
  | unrecognizedStepTypeInLine (stepType : StepType) (line : Int)
  /-- `unrecognized step type %q` (JSON). -/
  | unrecognizedStepType (stepType : StepType)
  /-- An error of `node.Decode` or of `json.Unmarshal`, returned as it is. -/
  | decode (msg : String)
  deriving DecidableEq, Repr

/-- How a computation ends: with a value, with a returned error, or with a
run-time panic. -/
inductive Outcome (α : Type) where
  | ok (a : α)
  | error (err : ExecError)
  | panic (msg : String)
  deriving DecidableEq, Repr

/-- What a method that returns `error` did: returned `nil`, returned an error,
or panicked. -/
inductive Returned where
  | nil
  | error (err : ExecError)
  | panic (msg : String)
  deriving DecidableEq, Repr

/-- One round of the loop of `UnmarshalYAML`, up to the assignment to
`steps[idx]`: the step built from the element `node`. The function `decode`
stands for `Decode` of the `yaml` library on a struct of the given kind. -/
def yamlStep {F : Type} (decode : StepKind → Node → Except String F) (node : Node) :
    Outcome (Step F) :=
  if node.Tag ≠ "!!map" then .error (.notAMap node.Tag)
  else
    match node.Content[0]? with
    | none => .panic "index out of range [0] with length 0"
    | some key =>
      match stepOfType key.Value with
      | none => .error (.unrecognizedStepTypeInLine key.Value node.Line)
      | some kind =>
        if node.Content.length > 2 ∧ (node.Content[1]?.map Node.Tag) = some "!!null" then
          match decode kind node with
          | .error msg => .error (.decode msg)
          | .ok fields => .ok { kind := kind, fields := fields }
        else
          match node.Content[1]? with
          | none => .panic "index out of range [1] with length 1"
          | some value =>
            match decode kind value with
            | .error msg => .error (.decode msg)
            | .ok fields => .ok { kind := kind, fields := fields }

/-- The loop of `UnmarshalYAML` from index `idx` on, over the elements left. -/
def yamlLoop {F : Type} (decode : StepKind → Node → Except String F) :
    List Node → Nat → Execution F → Outcome (Execution F)
  | [], _, steps => .ok steps
  | node :: rest, idx, steps =>
    match yamlStep decode node with
    | .ok step => yamlLoop decode rest (idx + 1) (steps.set idx (some step))
    | .error err => .error err
    | .panic msg => .panic msg

/-- The method `(e *Execution) UnmarshalYAML(node *yaml.Node) error`: the
receiver after the call and what the call did. -/
def Execution.UnmarshalYAML {F : Type} (decode : StepKind → Node → Except String F)
    (e : Execution F) (node : Node) : Execution F × Returned :=
  match yamlLoop decode node.Content 0 (List.replicate node.Content.length none) with
  | .ok steps => (steps, .nil)
  | .error err => (e, .error err)
  | .panic msg => (e, .panic msg)

/-- The type `json.RawMessage`. -/
abbrev RawMessage := String

/-- An element of `rawSteps`, a `map[string]json.RawMessage`, as the list of
its entries in the order in which `range` visits them. -/
abbrev RawStep := List (StepType × RawMessage)

/-- The inner loop of `UnmarshalJSON`, over the entries of one `rawStep`. The
function `unmarshal` stands for `json.Unmarshal` on a struct of the given
kind. -/
def jsonEntries {F : Type} (unmarshal : StepKind → RawMessage → Except String F) :
    RawStep → Nat → Execution F → Outcome (Execution F)
  | [], _, execution => .ok execution
  | (stepType, content) :: rest, idx, execution =>
    match stepOfType stepType with
    | none => .error (.unrecognizedStepType stepType)
    | some kind =>
      match unmarshal kind content with
      | .error msg => .error (.decode msg)
      | .ok fields =>
        jsonEntries unmarshal rest idx (execution.set idx (some { kind := kind, fields := fields }))

/-- The outer loop of `UnmarshalJSON` from index `idx` on. -/
def jsonLoop {F : Type} (unmarshal : StepKind → RawMessage → Except String F) :
    List RawStep → Nat → Execution F → Outcome (Execution F)
  | [], _, execution => .ok execution
  | rawStep :: rest, idx, execution =>
    match jsonEntries unmarshal rawStep idx execution with
    | .ok execution1 => jsonLoop unmarshal rest (idx + 1) execution1
    | .error err => .error err
    | .panic msg => .panic msg

/-- The method `(e *Execution) UnmarshalJSON(data []byte) error`. The bytes
`data` are given by what `json.Unmarshal(data, &rawSteps)` makes of them: an
error, or the value of `rawSteps`. -/
def Execution.UnmarshalJSON {F : Type} (unmarshal : StepKind → RawMessage → Except String F)
    (e : Execution F) (data : Except String (List RawStep)) : Execution F × Returned :=
  match data with
  | .error msg => (e, .error (.decode msg))
  | .ok rawSteps =>
    match jsonLoop unmarshal rawSteps 0 (List.replicate rawSteps.length none) with
    | .ok execution => (execution, .nil)
    | .error err => (e, .error err)
    | .panic msg => (e, .panic msg)

/-- The loop of `toMarshallable`: one map with the single key
`step.StepType()` for each step; calling `StepType` on a nil step panics. -/
def marshalSteps {F : Type} : Execution F → Outcome (List (List (StepType × Step F)))
  | [] => .ok []
  | none :: _ => .panic "invalid memory address or nil pointer dereference"
  | some step :: rest =>
    match marshalSteps rest with
    | .ok maps => .ok ([(step.kind.StepType, step)] :: maps)
    | .error err => .error err
    | .panic msg => .panic msg

/-- The method `Execution.toMarshallable`: `none` is Go's `nil`. -/
def Execution.toMarshallable {F : Type} (e : Execution F) :
    Outcome (Option (List (List (StepType × Step F)))) :=
  if e.length = 0 then .ok none
  else
    match marshalSteps e with
    | .ok maps => .ok (some maps)
    | .error err => .error err
    | .panic msg => .panic msg

/-- The method `Execution.MarshalJSON`, given by what `json.Unmarshal` reads
back from its bytes into `rawSteps`: `null` gives the nil slice, an array of
objects gives their entries. The function `marshal` stands for `json.Marshal`
on a step. -/
def Execution.MarshalJSON {F : Type} (marshal : Step F → RawMessage) (e : Execution F) :
    Outcome (List RawStep) :=
  match Execution.toMarshallable e with
  | .ok none => .ok []
  | .ok (some maps) => .ok (maps.map (fun m => m.map (fun kv => (kv.1, marshal kv.2))))
  | .error err => .error err
  | .panic msg => .panic msg

/-- A mapping node with one key and a scalar value, on line `line`. -/
def Node.single (key value : String) (line : Int) : Node :=
  .mk "!!map" "" line [.mk "!!str" key line [], .mk "!!str" value line []]

/-! ## `handler/step.go` -/

/-- Modelled from the spec: the struct `Delay` of `plan/delay.go`, a file that
is not among the sources; a fixed duration (`Min = Max`) or a range of
durations. -/
structure Delay where
  Min : Int
  Max : Int
  deriving DecidableEq, Repr

/-- Modelled from the spec: the struct `Loop` of the package `plan`, with the
fields that `handler.loop` reads. -/
structure Loop (F : Type) where
  Times : Int
  Delay : Delay
  Execution : Execution F

/-- Modelled from the spec: the struct `Parallel` of the package `plan`, with
the fields that `handler.parallel` reads. -/
structure Parallel (F : Type) where
  Concurrency : Int
  Execution : Execution F

/-- What `handler/step.go` calls and does not define, over a state `σ` of the
handler and its surroundings: the method `h.processSteps(concurrency, offset,
execution, location)` and the call `delay.Do(h.Context)`. An error is
represented by its message. -/
structure Runtime (σ F : Type) where
  processSteps : Int → Int → Execution F → String → σ → σ × Option String
  delayDo : Delay → σ → σ

/-- The method `handler.parallel`. -/
def handler.parallel {σ F : Type} (rt : Runtime σ F) (parallel : Parallel F)
    (location : String) (s : σ) : σ × Option String :=
  rt.processSteps parallel.Concurrency 0 parallel.Execution location s

/-- The method `handler.delay`: it always returns `nil`. -/
def handler.delay {σ F : Type} (rt : Runtime σ F) (delay : Delay) (s : σ) :
    σ × Option String :=
  (rt.delayDo delay s, none)

/-- The `for` statement of `handler.loop` with the counter at `i`, and the
`return nil` after it; `fuel` bounds the number of rounds. -/
def handler.loopFrom {σ F : Type} (rt : Runtime σ F) (loop : Loop F) (location : String) :
    Nat → Int → σ → σ × Option String
  | 0, _, s => (s, none)
  | fuel + 1, i, s =>
    if i < loop.Times then
      match rt.processSteps 1 0 loop.Execution location s with
      | (s1, some err) => (s1, some err)
      | (s1, none) => handler.loopFrom rt loop location fuel (i + 1) (handler.delay rt loop.Delay s1).1
    else (s, none)

/-- The method `handler.loop`: at most `loop.Times` rounds are run. -/
def handler.loop {σ F : Type} (rt : Runtime σ F) (loop : Loop F) (location : String) (s : σ) :
    σ × Option String :=
  handler.loopFrom rt loop location loop.Times.toNat 0 s

/-- What a handler did, as seen from `handler/step.go`. -/
inductive Event (F : Type) where
  | processSteps (concurrency offset : Int) (execution : Execution F) (location : String)
  | delay (d : Delay)

/-- Number of calls of `processSteps` in a trace. -/
def countProcessSteps {F : Type} : List (Event F) → Nat
  | [] => 0
  | .processSteps _ _ _ _ :: rest => countProcessSteps rest + 1
  | .delay _ :: rest => countProcessSteps rest

/-- A runtime that records every call in a trace; the call number `j` of
`processSteps`, counted from 0, returns `outcome j`. -/
def traceRuntime {F : Type} (outcome : Nat → Option String) : Runtime (List (Event F)) F where
  processSteps := fun concurrency offset execution location trace =>
    (trace ++ [.processSteps concurrency offset execution location],
      outcome (countProcessSteps trace))
  delayDo := fun d trace => trace ++ [.delay d]


/-! ## `handler/step.go`: `handler.call` -/

/-- The struct `Call` of `plan/call.go`. -/
structure Call (F : Type) where
  Async : Bool
  HTTP : HTTP
  Delay : Delay
  Execution : Execution F
  PostExecution : Caller.Execution F

/-- An outbound `*http.Request`, with what `handler.call` puts into it. -/
structure Request where
  Method : String
  URL : String
  Body : String
  Header : List (String × String)
  deriving DecidableEq, Repr

/-- What the closure `execute` of `handler.call` calls and `handler/step.go`
does not define, over a state `σ` of the handler's surroundings (the context,
the plan, the request id, the network): `random.String`,
`http.NewRequestWithContext`, `req.Header.Set`, `WritePlanHeaders`,
`WriteRequestTraceHeader` and `client.Do`. An error is represented by its
message. -/
structure CallRuntime (σ : Type) where
  randomString : Int → String
  newRequest : σ → String → String → String → Except String Request
  headerSet : Request → String → String → Request
  writePlanHeaders : Request → String → σ → Except String Request
  writeRequestTraceHeader : Request → σ → Request
  clientDo : Request → σ → σ × Option String

/-- The `body` of the outbound request, as chosen by the closure `execute`. -/
def requestBody {σ : Type} (crt : CallRuntime σ) (http : HTTP) : String :=
  if http.RequestBody ≠ "" then http.RequestBody
  else if http.GenRequestBody > 0 then crt.randomString http.GenRequestBody
  else ""

/-- The closure `execute` of `handler.call`: the surroundings after the call
and the returned error. The header map is ranged over in the order of the
list. -/
def execute {σ F : Type} (crt : CallRuntime σ) (call : Call F) (location : String) (w : σ) :
    σ × Option String :=
  match crt.newRequest w call.HTTP.Method call.HTTP.URL.raw (requestBody crt call.HTTP) with
  | .error err => (w, some err)
  | .ok req =>
    let req1 := call.HTTP.RequestHeaders.foldl (fun r kv => crt.headerSet r kv.1 kv.2) req
    match crt.writePlanHeaders req1 location w with
    | .error err => (w, some err)
    | .ok req2 => crt.clientDo (crt.writeRequestTraceHeader req2 w) w

/-- A handler while it enacts steps: its surroundings, the counter of the wait
group `pendingAsyncCalls`, the goroutines launched by `handler.call` that have
not finished yet (each with the call and location it captured), and the
lines written by `log.Printf`. -/
structure HandlerState (σ F : Type) where
  world : σ
  pendingAsyncCalls : Int
  goroutines : List (Call F × String)
  log : List String

/-- The method `handler.call`: the handler after the call and the returned
error. For an async call the goroutine is launched and not run. -/
def handler.call {σ F : Type} (crt : CallRuntime σ) (call : Call F) (location : String)
    (h : HandlerState σ F) : HandlerState σ F × Option String :=
  if call.Async then
    ({ h with
        pendingAsyncCalls := h.pendingAsyncCalls + 1
        goroutines := h.goroutines ++ [(call, location)] }, none)
  else
    let (w, err) := execute crt call location h.world
    ({ h with world := w }, err)

/-- The goroutine launched by `handler.call`, run from start to end: `execute`,
the log line when it failed, then `h.pendingAsyncCalls.Done()`. The goroutine
is number `idx` of those not finished; nothing happens when there is none. -/
def handler.finishGoroutine {σ F : Type} (crt : CallRuntime σ) (idx : Nat)
    (h : HandlerState σ F) : HandlerState σ F :=
  match h.goroutines[idx]? with
  | none => h
  | some (call, location) =>
    match execute crt call location h.world with
    | (w, some err) =>
      { world := w
        pendingAsyncCalls := h.pendingAsyncCalls - 1
        goroutines := h.goroutines.eraseIdx idx
        log := h.log ++ ["!! async call failed: " ++ err] }
    | (w, none) =>
      { world := w
        pendingAsyncCalls := h.pendingAsyncCalls - 1
        goroutines := h.goroutines.eraseIdx idx
        log := h.log }

/-- What happens next to a handler: it enacts a call step, or one of its
goroutines runs to its end. -/
inductive Action (F : Type) where
  | call (call : Call F) (location : String)
  | finish (idx : Nat)

/-- The handler after one action. -/
def handler.act {σ F : Type} (crt : CallRuntime σ) (h : HandlerState σ F) :
    Action F → HandlerState σ F
  | .call call location => (handler.call crt call location h).1
  | .finish idx => handler.finishGoroutine crt idx h

/-- A handler that has not launched anything yet. -/
def HandlerState.init {σ F : Type} (w : σ) : HandlerState σ F :=
  { world := w, pendingAsyncCalls := 0, goroutines := [], log := [] }

/-- The handler reached from `HandlerState.init w` by a sequence of actions. -/
def handler.after {σ F : Type} (crt : CallRuntime σ) (w : σ) (actions : List (Action F)) :
    HandlerState σ F :=
  actions.foldl (handler.act crt) (HandlerState.init w)

/-- The method `Execution.MarshalYAML`: the value it returns; its error is
always `nil`. -/
def Execution.MarshalYAML {F : Type} (e : Execution F) :
    Outcome (Option (List (List (StepType × Step F)))) :=
  Execution.toMarshallable e

/-- Surroundings of a handler made of its context and a trace: whether
`h.Context` is cancelled, and what the handler did so far. -/
structure CtxTrace (F : Type) where
  canceled : Bool
  trace : List (Event F)

/-- A runtime over `CtxTrace` that records every call: `processSteps` returns
`nil`, and `delay.Do` returns (at once when the context is cancelled). -/
def ctxRuntime {F : Type} : Runtime (CtxTrace F) F where
  processSteps := fun concurrency offset execution location s =>
    ({ s with trace := s.trace ++ [.processSteps concurrency offset execution location] }, none)
  delayDo := fun d s => { s with trace := s.trace ++ [.delay d] }

/-! ## Lemmas: character classes -/

/-- `C+` fails on a text that does not start with a character of `C`. -/
theorem matchPlus_none {R : Type} (cls : Char → Bool) (rest : List Char)
    (k : List Char → Option R) (hrest : ∀ c ∈ rest.head?, cls c = false) :
    matchPlus cls rest k = none := by
  cases rest with
  | nil => rfl
  | cons c cs =>
    have hc : cls c = false := hrest c (by simp)
    simp [matchPlus, hc]

/-- `C+` takes the whole run `xs` when the rest of the match succeeds after it. -/
theorem matchPlus_run {R : Type} (cls : Char → Bool) (xs rest : List Char)
    (k : List Char → Option R) (r : R) (hne : xs ≠ [])
    (hxs : ∀ c ∈ xs, cls c = true) (hrest : ∀ c ∈ rest.head?, cls c = false)
    (hk : k rest = some r) : matchPlus cls (xs ++ rest) k = some r := by
  induction xs with
  | nil => exact absurd rfl hne
  | cons x t ih =>
    have hx : cls x = true := hxs x (by simp)
    cases t with
    | nil =>
      simp [matchPlus, hx, matchPlus_none cls rest k hrest, hk]
    | cons y t2 =>
      have h2 := ih (by simp) (fun c hc => hxs c (List.mem_cons_of_mem _ hc))
      simp only [List.cons_append, matchPlus, hx, if_true] at h2 ⊢
      rw [h2]

theorem take_append_length_sub (xs rest : List Char) :
    (xs ++ rest).take ((xs ++ rest).length - rest.length) = xs := by
  simp

theorem run_plus (cls : Char → Bool) (xs rest : List Char) (caps : Captures)
    (k : List Char → Captures → Option Captures) (r : Captures) (hne : xs ≠ [])
    (hxs : ∀ c ∈ xs, cls c = true) (hrest : ∀ c ∈ rest.head?, cls c = false)
    (hk : k rest caps = some r) : (Regex.plus cls).run (xs ++ rest) caps k = some r := by
  simp only [Regex.run]
  exact matchPlus_run cls xs rest _ r hne hxs hrest hk

theorem run_group_plus (idx : Nat) (cls : Char → Bool) (xs rest : List Char) (caps : Captures)
    (k : List Char → Captures → Option Captures) (r : Captures) (hne : xs ≠ [])
    (hxs : ∀ c ∈ xs, cls c = true) (hrest : ∀ c ∈ rest.head?, cls c = false)
    (hk : k rest (caps.set idx xs) = some r) :
    (Regex.group idx (.plus cls)).run (xs ++ rest) caps k = some r := by
  simp only [Regex.run]
  apply matchPlus_run cls xs rest _ r hne hxs hrest
  simp only [take_append_length_sub]
  exact hk

/-- Captures of the three field form. -/
def caps3 (M U S : List Char) : Captures :=
  Captures.set (Captures.set (Captures.set (fun _ => []) 1 M) 2 U) 3 S

/-- C4. The code does not decode a `delay` step: for the element
`- delay: <value>` of an execution list, whatever the value and the decoders,
`UnmarshalYAML` returns `unrecognized step type "delay" in line ...` and
`UnmarshalJSON` returns `unrecognized step type "delay"`; the receiver is
left as it was. -/
theorem Execution_Unmarshal_delay {F : Type} (decode : StepKind → Node → Except String F)
    (unmarshal : StepKind → RawMessage → Except String F) (e : Execution F)
    (line : Int) (value : Node) (content : RawMessage) :
    Execution.UnmarshalYAML decode e
        (.mk "!!seq" "" line [.mk "!!map" "" line [.mk "!!str" "delay" line [], value]]) =
        (e, .error (.unrecognizedStepTypeInLine "delay" line)) ∧
      Execution.UnmarshalJSON unmarshal e (.ok [[("delay", content)]]) =
        (e, .error (.unrecognizedStepType "delay")) := by
  constructor
  · simp [Execution.UnmarshalYAML, Node.Content, yamlLoop, yamlStep, Node.Tag, Node.Value,
      Node.Line, stepOfType, StepTypeCompute, StepTypeCall, StepTypeParallel, StepTypeLoop]
  · simp [Execution.UnmarshalJSON, jsonLoop, jsonEntries, stepOfType, StepTypeCompute,
      StepTypeCall, StepTypeParallel, StepTypeLoop]

theorem yamlLoop_error_after {F : Type} (decode : StepKind → Node → Except String F)
    (pre post : List Node) (bad : Node) (err : ExecError)
    (hpre : ∀ n ∈ pre, ∃ step, yamlStep decode n = .ok step)
    (hbad : yamlStep decode bad = .error err) (idx : Nat) (steps : Execution F) :
    yamlLoop decode (pre ++ bad :: post) idx steps = .error err := by
  induction pre generalizing idx steps with
  | nil => simp [yamlLoop, hbad]
  | cons n t ih =>
    obtain ⟨step, hstep⟩ := hpre n (by simp)
    simp only [List.cons_append, yamlLoop, hstep]
    exact ih (fun m hm => hpre m (List.mem_cons_of_mem _ hm)) _ _

theorem jsonEntries_ok {F : Type} (unmarshal : StepKind → RawMessage → Except String F)
    (rs : RawStep)
    (hrs : ∀ kv ∈ rs, ∃ kind fields, stepOfType kv.1 = some kind ∧
      unmarshal kind kv.2 = .ok fields) (idx : Nat) (execution : Execution F) :
    ∃ execution1, jsonEntries unmarshal rs idx execution = .ok execution1 := by
  induction rs generalizing execution with
  | nil => exact ⟨execution, rfl⟩
  | cons kv t ih =>
    obtain ⟨kind, fields, h1, h2⟩ := hrs kv (by simp)
    obtain ⟨k, c⟩ := kv
    simp only [jsonEntries, h1, h2]
    exact ih (fun m hm => hrs m (List.mem_cons_of_mem _ hm)) _

theorem jsonEntries_error_after {F : Type}
    (unmarshal : StepKind → RawMessage → Except String F)
    (kpre kpost : RawStep) (k : StepType) (c : RawMessage)
    (hkpre : ∀ kv ∈ kpre, ∃ kind fields, stepOfType kv.1 = some kind ∧
      unmarshal kind kv.2 = .ok fields)
    (hk : stepOfType k = none) (idx : Nat) (execution : Execution F) :
    jsonEntries unmarshal (kpre ++ (k, c) :: kpost) idx execution =
      .error (.unrecognizedStepType k) := by
  induction kpre generalizing execution with
  | nil => simp [jsonEntries, hk]
  | cons kv t ih =>
    obtain ⟨kind, fields, h1, h2⟩ := hkpre kv (by simp)
    obtain ⟨k1, c1⟩ := kv
    simp only [List.cons_append, jsonEntries, h1, h2]
    exact ih (fun m hm => hkpre m (List.mem_cons_of_mem _ hm)) _

theorem jsonLoop_error_after {F : Type} (unmarshal : StepKind → RawMessage → Except String F)
    (jpre jpost : List RawStep) (bad : RawStep) (err : ExecError)
    (hjpre : ∀ rs ∈ jpre, ∀ kv ∈ rs, ∃ kind fields, stepOfType kv.1 = some kind ∧
      unmarshal kind kv.2 = .ok fields)
    (hbad : ∀ idx execution, jsonEntries unmarshal bad idx execution = .error err)
    (idx : Nat) (execution : Execution F) :
    jsonLoop unmarshal (jpre ++ bad :: jpost) idx execution = .error err := by
  induction jpre generalizing idx execution with
  | nil => simp [jsonLoop, hbad]
  | cons rs t ih =>
    obtain ⟨ex1, h1⟩ := jsonEntries_ok unmarshal rs (hjpre rs (by simp)) idx execution
    simp only [List.cons_append, jsonLoop, h1]
    exact ih (fun m hm => hjpre m (List.mem_cons_of_mem _ hm)) _ _

/-- C5 (amended). When every element before it decodes without error, an
element whose kind key is none of the kinds of the `switch` makes
`UnmarshalYAML` return the error that names that key and the line of the
element, and makes `UnmarshalJSON` return the error that names that key; and
whenever either method does not return `nil`, the receiver is left exactly as
it was. -/
theorem Execution_Unmarshal_unknown_kind {F : Type}
    (decode : StepKind → Node → Except String F)
    (unmarshal : StepKind → RawMessage → Except String F) (e : Execution F)
    (tag value badValue : String) (line badLine : Int) (pre post content : List Node)
    (key : Node) (jpre jpost : List RawStep) (kpre kpost : RawStep) (k : StepType)
    (c : RawMessage)
    (hpre : ∀ n ∈ pre, ∃ step, yamlStep decode n = .ok step)
    (hkey : stepOfType key.Value = none)
    (hjpre : ∀ rs ∈ jpre, ∀ kv ∈ rs, ∃ kind fields, stepOfType kv.1 = some kind ∧
      unmarshal kind kv.2 = .ok fields)
    (hkpre : ∀ kv ∈ kpre, ∃ kind fields, stepOfType kv.1 = some kind ∧
      unmarshal kind kv.2 = .ok fields)
    (hk : stepOfType k = none) :
    Execution.UnmarshalYAML decode e
        (.mk tag value line (pre ++ .mk "!!map" badValue badLine (key :: content) :: post)) =
        (e, .error (.unrecognizedStepTypeInLine key.Value badLine)) ∧
      Execution.UnmarshalJSON unmarshal e (.ok (jpre ++ (kpre ++ (k, c) :: kpost) :: jpost)) =
        (e, .error (.unrecognizedStepType k)) ∧
      (∀ node, (Execution.UnmarshalYAML decode e node).2 ≠ .nil →
        (Execution.UnmarshalYAML decode e node).1 = e) ∧
      (∀ data, (Execution.UnmarshalJSON unmarshal e data).2 ≠ .nil →
        (Execution.UnmarshalJSON unmarshal e data).1 = e) := by
  refine ⟨?_, ?_, ?_, ?_⟩
  · have hbad : yamlStep decode (.mk "!!map" badValue badLine (key :: content)) =
        .error (.unrecognizedStepTypeInLine key.Value badLine) := by
      simp [yamlStep, Node.Tag, Node.Content, Node.Line, hkey]
    simp only [Execution.UnmarshalYAML, Node.Content]
    rw [yamlLoop_error_after decode pre post _ _ hpre hbad]
  · simp only [Execution.UnmarshalJSON]
    rw [jsonLoop_error_after unmarshal jpre jpost _ _ hjpre
      (jsonEntries_error_after unmarshal kpre kpost k c hkpre hk)]
  · intro node hne
    unfold Execution.UnmarshalYAML at hne ⊢
    split <;> simp_all
  · intro data hne
    unfold Execution.UnmarshalJSON at hne ⊢
    split
    · rfl
    · split <;> simp_all

/-- C5 at the list `[call, bogus, loop]`, with decoders that accept every
content: both methods name `bogus` and leave the receiver as it was. -/
theorem Execution_Unmarshal_unknown_kind_witness :
    Execution.UnmarshalYAML (fun _ _ => Except.ok ()) [some ⟨.Loop, ()⟩]
        (.mk "!!seq" "" 1
          ([Node.single "call" "a" 1] ++
            .mk "!!map" "" 2 (.mk "!!str" "bogus" 2 [] :: [.mk "!!str" "b" 2 []]) ::
              [Node.single "loop" "c" 3])) =
        ([some ⟨.Loop, ()⟩], .error (.unrecognizedStepTypeInLine "bogus" 2)) ∧
      Execution.UnmarshalJSON (fun _ _ => Except.ok ()) [some ⟨.Loop, ()⟩]
        (.ok ([[("call", "a")]] ++ ([] ++ ("bogus", "b") :: []) :: [[("loop", "c")]])) =
        ([some ⟨.Loop, ()⟩], .error (.unrecognizedStepType "bogus")) :=
  have h := Execution_Unmarshal_unknown_kind (fun _ _ => Except.ok ()) (fun _ _ => Except.ok ())
    [some ⟨.Loop, ()⟩] "!!seq" "" "" 1 2 [Node.single "call" "a" 1] [Node.single "loop" "c" 3]
    [.mk "!!str" "b" 2 []] (.mk "!!str" "bogus" 2 []) [[("call", "a")]] [[("loop", "c")]]
    [] [] "bogus" "b"
    (by intro n hn; simp only [List.mem_singleton] at hn; subst hn; exact ⟨⟨.Call, ()⟩, by decide⟩)
    (by decide)
    (by
      intro rs hrs kv hkv
      simp only [List.mem_singleton] at hrs
      subst hrs
      simp only [List.mem_singleton] at hkv
      subst hkv
      exact ⟨.Call, (), by decide, rfl⟩)
    (by intro kv hkv; cases hkv)
    (by decide)
  ⟨h.1, h.2.1⟩

/-- C5 as stated fails: a list may hold an element of unknown kind and still
get an error that does not name it, because an earlier element fails first.
In `[x, {bogus: b}]` the scalar `x` gives the error about an element that is
not a map; in `[{call: a}, {bogus: b}]` with a decoder that rejects the
content of the call, the error of the decoder is returned. -/
theorem Execution_Unmarshal_unknown_kind_counterexample :
    (Execution.UnmarshalYAML (fun _ _ => Except.ok ()) []
        (.mk "!!seq" "" 1 [.mk "!!str" "x" 1 [], Node.single "bogus" "b" 2])).2 =
        .error (.notAMap "!!str") ∧
      (Execution.UnmarshalYAML (F := Unit) (fun _ _ => Except.error "invalid http definition") []
        (.mk "!!seq" "" 1 [Node.single "call" "a" 1, Node.single "bogus" "b" 2])).2 =
        .error (.decode "invalid http definition") ∧
      (Execution.UnmarshalJSON (F := Unit) (fun _ _ => Except.error "invalid http definition") []
        (.ok [[("call", "a")], [("bogus", "b")]])).2 =
        .error (.decode "invalid http definition") := by
  refine ⟨by decide, by decide, by decide⟩

/-! ## `Execution`: round trip -/

/-- C6. An `Execution` that holds a delay step does not survive the round
trip: `MarshalJSON` renders the step under the key `delay`, and
`UnmarshalJSON` rejects that key, whatever the decoders. -/
theorem Execution_roundtrip_delay {F : Type} (marshal : Step F → RawMessage)
    (unmarshal : StepKind → RawMessage → Except String F) (e0 : Execution F) (fields : F) :
    Execution.MarshalJSON marshal [some ⟨.Delay, fields⟩] =
        .ok [[("delay", marshal ⟨.Delay, fields⟩)]] ∧
      Execution.UnmarshalJSON unmarshal e0 (.ok [[("delay", marshal ⟨.Delay, fields⟩)]]) =
        (e0, .error (.unrecognizedStepType "delay")) := by
  constructor
  · simp [Execution.MarshalJSON, Execution.toMarshallable, marshalSteps, StepKind.StepType,
      StepTypeDelay]
  · simp [Execution.UnmarshalJSON, jsonLoop, jsonEntries, stepOfType, StepTypeCompute,
      StepTypeCall, StepTypeParallel, StepTypeLoop]

/-! ## `HTTP.Parse`: scheme, rejected inputs, frame -/

/-- C7. The token `httpbin.org/get` has no scheme, yet `http://` is not put in
front of it, because it starts with `http`: the URL is parsed from the token
as written. The token `ftp://h/p` has a scheme, yet `http://` is put in front
of it. -/
theorem HTTP_Parse_scheme (accepts : String → Bool) (h : HTTP) :
    HTTP.Parse accepts h "GET httpbin.org/get 200" =
        (if accepts "httpbin.org/get" then
          ({ h with
              Method := "GET", URL := ⟨"httpbin.org/get"⟩, StatusCode := 200
              GenRequestBody := 0, GenResponseBody := 0 }, none)
        else (h, some (.malformedURL "GET httpbin.org/get 200" "net/url: malformed URL"))) ∧
      HTTP.Parse accepts h "GET ftp://h/p 200" =
        (if accepts "http://ftp://h/p" then
          ({ h with
              Method := "GET", URL := ⟨"http://ftp://h/p"⟩, StatusCode := 200
              GenRequestBody := 0, GenResponseBody := 0 }, none)
        else (h, some (.malformedURL "GET ftp://h/p 200" "net/url: malformed URL"))) := by
  have e1 : FindStringSubmatch "GET httpbin.org/get 200" =
      some (caps3 "GET".data "httpbin.org/get".data "200".data) := by rfl
  have e2 : FindStringSubmatch "GET ftp://h/p 200" =
      some (caps3 "GET".data "ftp://h/p".data "200".data) := by rfl
  have a : Atoi "200".data = .ok 200 := by rfl
  have u1 : urlStringOf "httpbin.org/get" = "httpbin.org/get" := by decide
  have u2 : urlStringOf "ftp://h/p" = "http://ftp://h/p" := by decide
  have c1 : stringContainsCTLByte
      (String.mk ("httpbin.org/get".data.takeWhile (fun c => c != '#'))) = false := by decide
  have c2 : stringContainsCTLByte
      (String.mk ("http://ftp://h/p".data.takeWhile (fun c => c != '#'))) = false := by decide
  constructor
  · unfold HTTP.Parse
    rw [e1]
    have p1 : (String.mk (caps3 "GET".data "httpbin.org/get".data "200".data 2)) =
        "httpbin.org/get" := rfl
    have p3 : caps3 "GET".data "httpbin.org/get".data "200".data 3 = "200".data := rfl
    have p4 : caps3 "GET".data "httpbin.org/get".data "200".data 4 = [] := rfl
    have p0 : (String.mk (caps3 "GET".data "httpbin.org/get".data "200".data 1)) = "GET" := rfl
    simp only [p1, p3, p4, p0, a, u1, urlParse, c1]
    cases accepts "httpbin.org/get" <;> simp
  · unfold HTTP.Parse
    rw [e2]
    have p1 : (String.mk (caps3 "GET".data "ftp://h/p".data "200".data 2)) = "ftp://h/p" := rfl
    have p3 : caps3 "GET".data "ftp://h/p".data "200".data 3 = "200".data := rfl
    have p4 : caps3 "GET".data "ftp://h/p".data "200".data 4 = [] := rfl
    have p0 : (String.mk (caps3 "GET".data "ftp://h/p".data "200".data 1)) = "GET" := rfl
    simp only [p1, p3, p4, p0, a, u2, urlParse, c2]
    cases accepts "http://ftp://h/p" <;> simp

/-- C8. `HTTP.Parse` accepts strings that are not of the form
`METHOD URL STATUS [REQSIZE RESPSIZE]` as a whole, because the pattern is
searched for anywhere in the string: `GET h/p 200 5`, with one size only, is
parsed like `GET h/p 200`, and `GET h/p 20x` is parsed with status 20. No
error is returned unless `url.Parse` rejects `http://h/p`. -/
theorem HTTP_Parse_accepts_partial_match (accepts : String → Bool) (h : HTTP) :
    HTTP.Parse accepts h "GET h/p 200 5" =
        (if accepts "http://h/p" then
          ({ h with
              Method := "GET", URL := ⟨"http://h/p"⟩, StatusCode := 200
              GenRequestBody := 0, GenResponseBody := 0 }, none)
        else (h, some (.malformedURL "GET h/p 200 5" "net/url: malformed URL"))) ∧
      HTTP.Parse accepts h "GET h/p 20x" =
        (if accepts "http://h/p" then
          ({ h with
              Method := "GET", URL := ⟨"http://h/p"⟩, StatusCode := 20
              GenRequestBody := 0, GenResponseBody := 0 }, none)
        else (h, some (.malformedURL "GET h/p 20x" "net/url: malformed URL"))) := by
  have e1 : FindStringSubmatch "GET h/p 200 5" =
      some (caps3 "GET".data "h/p".data "200".data) := by rfl
  have e2 : FindStringSubmatch "GET h/p 20x" =
      some (caps3 "GET".data "h/p".data "20".data) := by rfl
  have a1 : Atoi "200".data = .ok 200 := by rfl
  have a2 : Atoi "20".data = .ok 20 := by rfl
  have u : urlStringOf "h/p" = "http://h/p" := by decide
  have c : stringContainsCTLByte
      (String.mk ("http://h/p".data.takeWhile (fun c => c != '#'))) = false := by decide
  constructor
  · unfold HTTP.Parse
    rw [e1]
    have p0 : (String.mk (caps3 "GET".data "h/p".data "200".data 1)) = "GET" := rfl
    have p1 : (String.mk (caps3 "GET".data "h/p".data "200".data 2)) = "h/p" := rfl
    have p3 : caps3 "GET".data "h/p".data "200".data 3 = "200".data := rfl
    have p4 : caps3 "GET".data "h/p".data "200".data 4 = [] := rfl
    simp only [p0, p1, p3, p4, a1, u, urlParse, c]
    cases accepts "http://h/p" <;> simp
  · unfold HTTP.Parse
    rw [e2]
    have p0 : (String.mk (caps3 "GET".data "h/p".data "20".data 1)) = "GET" := rfl
    have p1 : (String.mk (caps3 "GET".data "h/p".data "20".data 2)) = "h/p" := rfl
    have p3 : caps3 "GET".data "h/p".data "20".data 3 = "20".data := rfl
    have p4 : caps3 "GET".data "h/p".data "20".data 4 = [] := rfl
    simp only [p0, p1, p3, p4, a2, u, urlParse, c]
    cases accepts "http://h/p" <;> simp

/-- C9. `HTTP.Parse` either returns an error and leaves the receiver as it
was, or returns no error and changes at most the fields `Method`, `URL`,
`StatusCode`, `GenRequestBody` and `GenResponseBody`: the bodies and the
header maps keep their values. -/
theorem HTTP_Parse_frame (accepts : String → Bool) (h : HTTP) (s : String) :
    (∃ err, HTTP.Parse accepts h s = (h, some err)) ∨
      (∃ method url statusCode reqBodySize respBodySize,
        HTTP.Parse accepts h s =
          ({ h with
              Method := method, URL := url, StatusCode := statusCode
              GenRequestBody := reqBodySize, GenResponseBody := respBodySize }, none)) := by
  unfold HTTP.Parse
  split
  · exact Or.inl ⟨_, rfl⟩
  · split
    · exact Or.inl ⟨_, rfl⟩
    · split
      · exact Or.inl ⟨_, rfl⟩
      · split
        · exact Or.inl ⟨_, rfl⟩
        · split
          · exact Or.inl ⟨_, rfl⟩
          · exact Or.inr ⟨_, _, _, _, _, rfl⟩

/-! ## `handler.loop` -/

theorem countProcessSteps_append {F : Type} (a b : List (Event F)) :
    countProcessSteps (a ++ b) = countProcessSteps a + countProcessSteps b := by
  induction a with
  | nil => simp [countProcessSteps]
  | cons x t ih =>
    cases x <;> simp [countProcessSteps, ih]; omega

theorem loopFrom_trace {F : Type} (outcome : Nat → Option String) (loop : Loop F)
    (location : String) (fuel : Nat) :
    ∀ (i : Int) (trace : List (Event F)) (k : Nat), (loop.Times - i).toNat = fuel → k ≤ fuel →
      (∀ j < k, outcome (countProcessSteps trace + j) = none) →
      (k < fuel → outcome (countProcessSteps trace + k) ≠ none) →
      handler.loopFrom (traceRuntime outcome) loop location fuel i trace =
        if k = fuel then
          (trace ++ (List.replicate k
            [Event.processSteps 1 0 loop.Execution location, Event.delay loop.Delay]).flatten, none)
        else
          (trace ++ (List.replicate k
            [Event.processSteps 1 0 loop.Execution location, Event.delay loop.Delay]).flatten ++
            [Event.processSteps 1 0 loop.Execution location],
            outcome (countProcessSteps trace + k)) := by
  induction fuel with
  | zero =>
    intro i trace k _ hk _ _
    have : k = 0 := by omega
    subst this
    simp [handler.loopFrom]
  | succ n ih =>
    intro i trace k hfuel hk hok hstop
    have hi : i < loop.Times := by omega
    simp only [handler.loopFrom, hi, if_true, traceRuntime, handler.delay]
    cases k with
    | zero =>
      have h0 := hstop (by omega)
      simp only [Nat.add_zero] at h0
      cases ho : outcome (countProcessSteps trace) with
      | none => exact absurd ho h0
      | some err => simp [ho]
    | succ k1 =>
      have h0 := hok 0 (by omega)
      simp only [Nat.add_zero] at h0
      simp only [h0]
      have hcount : countProcessSteps
          (trace ++ [Event.processSteps 1 0 loop.Execution location] ++ [Event.delay loop.Delay]) =
          countProcessSteps trace + 1 := by
        simp [countProcessSteps_append, countProcessSteps]
      have := ih (i + 1)
        (trace ++ [Event.processSteps 1 0 loop.Execution location] ++ [Event.delay loop.Delay])
        k1 (by omega) (by omega)
        (by
          intro j hj
          rw [hcount]
          have := hok (j + 1) (by omega)
          rw [show countProcessSteps trace + 1 + j = countProcessSteps trace + (j + 1) by omega]
          exact this)
        (by
          intro hlt
          rw [hcount]
          have := hstop (by omega)
          rw [show countProcessSteps trace + 1 + k1 = countProcessSteps trace + (k1 + 1) by omega]
          exact this)
      simp only [traceRuntime, handler.delay] at this
      rw [this, hcount]
      simp [List.replicate_succ, Nat.add_assoc, Nat.add_comm 1 k1]

/-- C10. With `n = max(0, times)`: when the first `k ≤ n` enactments of the
body succeed and either `k = n` or enactment number `k` fails, `handler.loop`
performs exactly `processSteps(1, 0, execution, location)` followed by the
delay, `k` times in turn; if `k = n` it then returns `nil`, otherwise it
enacts the body once more and returns the error of that enactment, with no
delay after it and no further iteration. -/
theorem handler_loop_enacts {F : Type} (outcome : Nat → Option String) (loop : Loop F)
    (location : String) (k : Nat) (hk : k ≤ loop.Times.toNat)
    (hok : ∀ j < k, outcome j = none) (hstop : k < loop.Times.toNat → outcome k ≠ none) :
    handler.loop (traceRuntime outcome) loop location [] =
      if k = loop.Times.toNat then
        ((List.replicate k
          [Event.processSteps 1 0 loop.Execution location, Event.delay loop.Delay]).flatten, none)
      else
        ((List.replicate k
          [Event.processSteps 1 0 loop.Execution location, Event.delay loop.Delay]).flatten ++
          [Event.processSteps 1 0 loop.Execution location], outcome k) := by
  have h := loopFrom_trace outcome loop location loop.Times.toNat 0 [] k
    (by simp)
    hk (by simpa [countProcessSteps] using hok) (by simpa [countProcessSteps] using hstop)
  simpa [handler.loop, countProcessSteps] using h

/-- C10 at three loops over an empty body: two rounds that succeed; three
rounds of which the second fails with `boom`; and `times = -1`. -/
theorem handler_loop_enacts_witness :
    handler.loop (F := Unit) (traceRuntime (fun _ => none)) ⟨2, ⟨5, 5⟩, []⟩ "0" [] =
        ([.processSteps 1 0 [] "0", .delay ⟨5, 5⟩, .processSteps 1 0 [] "0", .delay ⟨5, 5⟩],
          none) ∧
      handler.loop (F := Unit) (traceRuntime (fun j => if j = 1 then some "boom" else none))
          ⟨3, ⟨5, 5⟩, []⟩ "0" [] =
        ([.processSteps 1 0 [] "0", .delay ⟨5, 5⟩, .processSteps 1 0 [] "0"], some "boom") ∧
      handler.loop (F := Unit) (traceRuntime (fun _ => none)) ⟨-1, ⟨5, 5⟩, []⟩ "0" [] =
        ([], none) := by
  refine ⟨?_, ?_, ?_⟩
  · have h := handler_loop_enacts (F := Unit) (fun _ => none) ⟨2, ⟨5, 5⟩, []⟩ "0" 2
      (by decide) (fun _ _ => rfl) (by decide)
    simpa using h
  · have h := handler_loop_enacts (F := Unit) (fun j => if j = 1 then some "boom" else none)
      ⟨3, ⟨5, 5⟩, []⟩ "0" 1 (by decide)
      (by
        intro j hj
        have hj0 : j = 0 := by omega
        subst hj0
        rfl)
      (by decide)
    simpa using h
  · have h := handler_loop_enacts (F := Unit) (fun _ => none) ⟨-1, ⟨5, 5⟩, []⟩ "0" 0
      (by decide) (by intro j hj; omega) (by decide)
    simpa using h

/-! ## `handler.call` -/

theorem act_invariant {σ F : Type} (crt : CallRuntime σ) (h : HandlerState σ F)
    (a : Action F) (hinv : h.pendingAsyncCalls = h.goroutines.length) :
    (handler.act crt h a).pendingAsyncCalls = (handler.act crt h a).goroutines.length := by
  cases a with
  | call call location =>
    simp only [handler.act, handler.call]
    cases call.Async with
    | true => simp [hinv]
    | false => simp [hinv]
  | finish idx =>
    simp only [handler.act, handler.finishGoroutine]
    cases hg : h.goroutines[idx]? with
    | none => simpa using hinv
    | some cl =>
      obtain ⟨call, location⟩ := cl
      have hlt : idx < h.goroutines.length := by
        by_contra hge
        rw [List.getElem?_eq_none (by omega)] at hg
        cases hg
      have hlen : (h.goroutines.eraseIdx idx).length = h.goroutines.length - 1 := by
        rw [List.length_eraseIdx]
        simp [hlt]
      simp only []
      cases hex : execute crt call location h.world with
      | mk w err =>
        cases err with
        | none => simp only [hlen, hinv]; omega
        | some e => simp only [hlen, hinv]; omega

theorem foldl_invariant {σ F : Type} (crt : CallRuntime σ) (actions : List (Action F))
    (h : HandlerState σ F) (hinv : h.pendingAsyncCalls = h.goroutines.length) :
    (actions.foldl (handler.act crt) h).pendingAsyncCalls =
      (actions.foldl (handler.act crt) h).goroutines.length := by
  induction actions generalizing h with
  | nil => simpa using hinv
  | cons a t ih => exact ih _ (act_invariant crt h a hinv)

/-- C12. In every state `h` reached from a fresh handler by calls of
`handler.call` and by goroutines running to their end, the counter
`pendingAsyncCalls` equals the number of goroutines launched and not
finished, so it is not negative, and it is 0 when no such goroutine is left.
From `h`, `handler.call` adds exactly 1 to the counter for an async call and
nothing otherwise, and a goroutine that ends takes exactly 1 from it,
whether its request failed or not. -/
theorem pendingAsyncCalls_counts {σ F : Type} (crt : CallRuntime σ) (w : σ)
    (actions : List (Action F)) (call : Call F) (location : String) (idx : Nat) :
    (handler.after crt w actions).pendingAsyncCalls =
        (handler.after crt w actions).goroutines.length ∧
      0 ≤ (handler.after crt w actions).pendingAsyncCalls ∧
      ((handler.after crt w actions).goroutines ≠ [] ∨
        (handler.after crt w actions).pendingAsyncCalls = 0) ∧
      (handler.call crt call location (handler.after crt w actions)).1.pendingAsyncCalls =
        (handler.after crt w actions).pendingAsyncCalls + (if call.Async then 1 else 0) ∧
      (handler.finishGoroutine crt idx (handler.after crt w actions)).pendingAsyncCalls =
        (handler.after crt w actions).pendingAsyncCalls -
          (if idx < (handler.after crt w actions).goroutines.length then 1 else 0) := by
  have hinv : (handler.after crt w actions).pendingAsyncCalls =
      (handler.after crt w actions).goroutines.length :=
    foldl_invariant crt actions _ (by simp [HandlerState.init])
  generalize handler.after crt w actions = h at hinv ⊢
  refine ⟨hinv, by omega, ?_, ?_, ?_⟩
  · cases hg : h.goroutines with
    | nil => right; simp [hinv, hg]
    | cons a t => left; simp
  · unfold handler.call
    cases call.Async <;> simp
  · unfold handler.finishGoroutine
    cases hg : h.goroutines[idx]? with
    | none =>
      have hge : ¬ idx < h.goroutines.length := by
        intro hlt
        rw [List.getElem?_eq_getElem hlt] at hg
        cases hg
      simp [hge]
    | some cl =>
      obtain ⟨call1, location1⟩ := cl
      have hlt : idx < h.goroutines.length := by
        by_contra hge
        rw [List.getElem?_eq_none (by omega)] at hg
        cases hg
      simp only [hlt, if_true]
      cases hex : execute crt call1 location1 h.world with
      | mk w1 err =>
        cases err <;> rfl

/-! ## `handler.parallel` -/

/-- C13. For every execution list and location, `handler.parallel` with
`Concurrency = 1` is the call `processSteps(1, 0, execution, location)`, and
one round of `handler.loop` over the same list is that same call, followed by
the delay when it returned `nil`: the returned error is the same. -/
theorem handler_parallel_sequential {σ F : Type} (rt : Runtime σ F) (execution : Execution F)
    (location : String) (d : Delay) (s : σ) :
    handler.parallel rt ⟨1, execution⟩ location s = rt.processSteps 1 0 execution location s ∧
      handler.loop rt ⟨1, d, execution⟩ location s =
        (match handler.parallel rt ⟨1, execution⟩ location s with
          | (s1, some err) => (s1, some err)
          | (s1, none) => (rt.delayDo d s1, none)) ∧
      (handler.loop rt ⟨1, d, execution⟩ location s).2 =
        (handler.parallel rt ⟨1, execution⟩ location s).2 := by
  have h2 : handler.loop rt ⟨1, d, execution⟩ location s =
      (match handler.parallel rt ⟨1, execution⟩ location s with
        | (s1, some err) => (s1, some err)
        | (s1, none) => (rt.delayDo d s1, none)) := by
    simp only [handler.loop, handler.parallel]
    have : (1 : Int).toNat = 1 := rfl
    rw [this]
    simp only [handler.loopFrom, handler.delay]
    cases hp : rt.processSteps 1 0 execution location s with
    | mk s1 err => cases err <;> simp
  refine ⟨rfl, h2, ?_⟩
  rw [h2]
  cases hp : handler.parallel rt ⟨1, execution⟩ location s with
  | mk s1 err => cases err <;> rfl

/-! ## `Fill`: the garbage collection hint and the content of the buffer -/

/-- C14. On a buffer of 5 bytes, `Grow(-200 MB)` calls `runtime.GC()`, although
neither the size before the call (5) nor the size after it (0) is above the
threshold: `oldSize` is computed as `newSize - bytes`, which is 200 MB when
the size was clamped at 0. -/
theorem Fill_Grow_gc_after_clamp :
    ((Fill.mk [1, 2, 3, 4, 5]).Grow (-(200 * 1024 * 1024))).gc = true ∧
      ((Fill.mk [1, 2, 3, 4, 5]).Grow (-(200 * 1024 * 1024))).newSize = 0 ∧
      ¬ (Fill.mk [1, 2, 3, 4, 5]).Size > gcThreshold ∧
      ¬ ((Fill.mk [1, 2, 3, 4, 5]).Grow (-(200 * 1024 * 1024))).fill.Size > gcThreshold := by
  decide

theorem marshalSteps_some {F : Type} (steps : List (Step F)) :
    marshalSteps (steps.map some) =
      .ok (steps.map (fun step => [(step.kind.StepType, step)])) := by
  induction steps with
  | nil => rfl
  | cons step t ih => simp [marshalSteps, ih]

/-- C16. `toMarshallable` (and so `MarshalYAML`) renders an `Execution` of
`n ≥ 1` steps as the list of `n` maps, in the same order, whose map number
`i` has the single key `StepType()` of step `i`, with that step as value; the
empty `Execution` is rendered as `nil`. -/
theorem Execution_toMarshallable_shape {F : Type} (steps : List (Step F)) (hne : steps ≠ []) :
    Execution.toMarshallable (steps.map some) =
        .ok (some (steps.map (fun step => [(step.kind.StepType, step)]))) ∧
      Execution.MarshalYAML (steps.map some) =
        .ok (some (steps.map (fun step => [(step.kind.StepType, step)]))) ∧
      Execution.toMarshallable ([] : Execution F) = .ok none := by
  have h : Execution.toMarshallable (steps.map some) =
      .ok (some (steps.map (fun step => [(step.kind.StepType, step)]))) := by
    unfold Execution.toMarshallable
    rw [if_neg (by simpa using hne), marshalSteps_some]
  exact ⟨h, h, rfl⟩

/-- C16 at the execution `[call, loop]`. -/
theorem Execution_toMarshallable_shape_witness :
    Execution.toMarshallable [some (Step.mk .Call "a"), some (Step.mk .Loop "b")] =
        .ok (some [[("call", Step.mk .Call "a")], [("loop", Step.mk .Loop "b")]]) ∧
      Execution.toMarshallable ([] : Execution String) = .ok none :=
  have h := Execution_toMarshallable_shape [Step.mk .Call "a", Step.mk .Loop "b"] (by decide)
  ⟨h.1, h.2.2⟩

/-! ## `handler.delay` and a cancelled context -/

/-- C17 (amended). Whatever the state of the context, also when it is
cancelled, `handler.delay` hands the delay to `delay.Do` and returns `nil`;
and `handler.loop`, after a round whose body succeeded, goes on with the
next round from the state the delay left, without looking at a result of the
delay. -/
theorem handler_delay_returns_nil {σ F : Type} (rt : Runtime σ F) (canceled : σ → Bool)
    (delay : Delay) (loop : Loop F) (location : String) (s s1 : σ)
    (_hs : canceled s = true) (_hs1 : canceled s1 = true) (htimes : 0 < loop.Times)
    (hbody : rt.processSteps 1 0 loop.Execution location s = (s1, none)) :
    handler.delay rt delay s = (rt.delayDo delay s, none) ∧
      handler.loop rt loop location s =
        handler.loopFrom rt loop location (loop.Times.toNat - 1) 1 (rt.delayDo loop.Delay s1) := by
  refine ⟨rfl, ?_⟩
  unfold handler.loop
  obtain ⟨n, hn⟩ : ∃ n, loop.Times.toNat = n + 1 := ⟨loop.Times.toNat - 1, by omega⟩
  rw [hn]
  simp only [handler.loopFrom, htimes, if_true, hbody, handler.delay, Nat.add_sub_cancel]
  rfl

/-- C17 with a cancelled context, a delay of 5 and a loop of two rounds over
an empty body. -/
theorem handler_delay_returns_nil_witness :
    handler.delay (F := Unit) ctxRuntime ⟨5, 5⟩ ⟨true, []⟩ =
        (ctxRuntime.delayDo ⟨5, 5⟩ ⟨true, []⟩, none) ∧
      handler.loop (F := Unit) ctxRuntime ⟨2, ⟨5, 5⟩, []⟩ "0" ⟨true, []⟩ =
        handler.loopFrom ctxRuntime ⟨2, ⟨5, 5⟩, []⟩ "0" ((2 : Int).toNat - 1) 1
          (ctxRuntime.delayDo ⟨5, 5⟩ ⟨true, [.processSteps 1 0 [] "0"]⟩) :=
  handler_delay_returns_nil (F := Unit) ctxRuntime (fun s => s.canceled) ⟨5, 5⟩
    ⟨2, ⟨5, 5⟩, []⟩ "0" ⟨true, []⟩ ⟨true, [.processSteps 1 0 [] "0"]⟩ rfl rfl (by decide) rfl

/-- C17 as stated fails: with a cancelled context, `handler.delay` returns
`nil`, and a loop of one round over an empty body returns `nil` after its
delay. -/
theorem handler_delay_returns_nil_counterexample :
    (handler.delay (F := Unit) ctxRuntime ⟨5, 5⟩ ⟨true, []⟩).1.canceled = true ∧
      (handler.delay (F := Unit) ctxRuntime ⟨5, 5⟩ ⟨true, []⟩).2 = none ∧
      (handler.loop (F := Unit) ctxRuntime ⟨1, ⟨5, 5⟩, []⟩ "0" ⟨true, []⟩).2 = none := by
  refine ⟨rfl, rfl, rfl⟩

/-! ## The body of the outbound request -/

/-- C19. `UnmarshalJSON` succeeds on `[{}]` and yields an `Execution` whose
only element is the nil step; on an object with the two keys `call` and
`loop`, visited in this order, it yields one step, of kind loop. -/
theorem Execution_UnmarshalJSON_nil_step {F : Type}
    (unmarshal : StepKind → RawMessage → Except String F) (e : Execution F) :
    Execution.UnmarshalJSON unmarshal e (.ok [[]]) = ([none], .nil) ∧
      Execution.UnmarshalJSON (fun _ _ => Except.ok ()) []
          (.ok [[("call", "a"), ("loop", "b")]]) =
        ([some ⟨.Loop, ()⟩], .nil) := by
  constructor
  · rfl
  · decide

/-- C20. On the sequence `- {}`, whose element is a mapping node without
content, `UnmarshalYAML` panics at `node.Content[0]`: it returns neither an
`Execution` nor an error. -/
theorem Execution_UnmarshalYAML_panics {F : Type} (decode : StepKind → Node → Except String F)
    (e : Execution F) (line : Int) :
    Execution.UnmarshalYAML decode e (.mk "!!seq" "" line [.mk "!!map" "" line []]) =
      (e, .panic "index out of range [0] with length 0") := by
  simp [Execution.UnmarshalYAML, Node.Content, yamlLoop, yamlStep, Node.Tag]

end Caller
